import Mathlib

/-!
Verification of the migration-fixing script (src/fix_user_roles.py).

The script walks a fixed list of migration files and, for each existing
file, replaces every occurrence of the regular expression

  EXISTS \(\s*SELECT 1 FROM user_roles\s*WHERE user_id = auth\.uid\(\) AND role = \x27admin\x27\s*\)

by the literal text public.is_admin(), reporting the number of matches
counted with re.findall on the original content.

File contents are modelled as List Char.  The regex has no unescaped dot
and no anchors, so the re.MULTILINE and re.DOTALL flags are inert; the
pattern is a sequence of four character-literal runs separated by three
greedy whitespace runs.  Each literal run after a whitespace run starts
with a non-whitespace character, so greedy matching never backtracks and
the regex match at a given position is computed by maximal-munch
(dropSpaces below).  The whitespace class is modelled by the six ASCII
whitespace characters recognised by Python's regex class; the wider
Unicode whitespace characters play no role in any claim.  re.sub and
re.findall both scan the input left to right, taking the leftmost match
and resuming immediately after it; the scan is modelled by subnF and
countF, driven by an explicit fuel that starts at the length of the input
(the scan consumes at least one character per step, so this fuel is never
exhausted; fuel keeps the functions structurally recursive and hence
evaluable by the kernel).
-/

/-- The six characters matched by the whitespace class of the regex
(Python's ASCII whitespace). -/
def isSpaceChar (c : Char) : Prop :=
  c = ' ' ∨ c = '\t' ∨ c = '\n' ∨ c = '\x0b' ∨ c = '\x0c' ∨ c = '\r'

instance (c : Char) : Decidable (isSpaceChar c) := by
  unfold isSpaceChar
  exact inferInstance

/-- The single-quote character, written by code point to keep source
literals free of quote characters. -/
def quoteChar : Char := Char.ofNat 39

/-- First literal run of the regex: the text before the first whitespace
class. -/
def lit1 : List Char := "EXISTS (".data

/-- Second literal run of the regex. -/
def lit2 : List Char := "SELECT 1 FROM user_roles".data

/-- Third literal run of the regex: the WHERE clause, with the quoted
role name.  Note that every space inside this run is a literal single
space in the regex source; in particular exactly one space separates
WHERE from user_id. -/
def lit3 : List Char :=
  "WHERE user_id = auth.uid() AND role = ".data ++ [quoteChar] ++ "admin".data ++ [quoteChar]

/-- Fourth literal run of the regex: the closing parenthesis. -/
def lit4 : List Char := ")".data

/-- The replacement string of the script (variable replacement in the
source). -/
def replacement : List Char := "public.is_admin()".data

/-- Maximal-munch consumption of the whitespace class: drops the longest
run of whitespace characters. -/
def dropSpaces : List Char → List Char
  | [] => []
  | c :: rest => if isSpaceChar c then dropSpaces rest else c :: rest

/-- Literal matching: strips the given literal run off the front of the
input, returning the rest, or fails. -/
def stripLit : List Char → List Char → Option (List Char)
  | [], s => some s
  | _ :: _, [] => none
  | c :: l, c₂ :: s => if c = c₂ then stripLit l s else none

/-- The regex match attempt at one position (variable pattern in the
source): the four literal runs separated by greedy whitespace runs.
Returns the input remaining after the match, or none when the pattern
does not match at this position. -/
def matchPattern (s : List Char) : Option (List Char) :=
  (stripLit lit1 s).bind fun s₁ =>
    (stripLit lit2 (dropSpaces s₁)).bind fun s₂ =>
      (stripLit lit3 (dropSpaces s₂)).bind fun s₃ =>
        stripLit lit4 (dropSpaces s₃)

/-- A list consisting only of whitespace characters. -/
def allSpace (w : List Char) : Prop := ∀ c ∈ w, isSpaceChar c

instance (w : List Char) : Decidable (allSpace w) := by
  unfold allSpace
  exact List.decidableBAll _ w

/-- The exact shape of a piece of text consumed by one regex match. -/
def MatchText (m : List Char) : Prop :=
  ∃ w₁ w₂ w₃, allSpace w₁ ∧ allSpace w₂ ∧ allSpace w₃ ∧
    m = lit1 ++ (w₁ ++ (lit2 ++ (w₂ ++ (lit3 ++ (w₃ ++ lit4)))))

theorem stripLit_eq {l s r : List Char} : stripLit l s = some r ↔ s = l ++ r := by
  induction l generalizing s with
  | nil => simp [stripLit, eq_comm]
  | cons c l ih =>
    cases s with
    | nil => simp [stripLit]
    | cons c₂ s =>
      by_cases h : c = c₂
      · subst h
        simp [stripLit, ih]
      · simp [stripLit, h]
        intro hc
        exact absurd hc.symm h

theorem stripLit_pre (l t : List Char) : stripLit l (l ++ t) = some t :=
  stripLit_eq.mpr rfl

theorem dropSpaces_decomp (s : List Char) :
    ∃ w, allSpace w ∧ s = w ++ dropSpaces s := by
  induction s with
  | nil => exact ⟨[], fun c hc => absurd hc (List.not_mem_nil c), rfl⟩
  | cons c rest ih =>
    by_cases h : isSpaceChar c
    · obtain ⟨w, hw, hrest⟩ := ih
      refine ⟨c :: w, ?_, ?_⟩
      · intro x hx
        rcases List.mem_cons.mp hx with hx | hx
        · exact hx ▸ h
        · exact hw x hx
      · simp [dropSpaces, h]
        exact hrest
    · exact ⟨[], fun x hx => absurd hx (List.not_mem_nil x), by simp [dropSpaces, h]⟩

theorem dropSpaces_allSpace_append {w : List Char} (hw : allSpace w) (t : List Char) :
    dropSpaces (w ++ t) = dropSpaces t := by
  induction w with
  | nil => rfl
  | cons c w ih =>
    have hc : isSpaceChar c := hw c (List.mem_cons_self c w)
    have hw' : allSpace w := fun x hx => hw x (List.mem_cons_of_mem c hx)
    simp [dropSpaces, hc, ih hw']

theorem dropSpaces_cons_of_not {c : Char} (h : ¬isSpaceChar c) (t : List Char) :
    dropSpaces (c :: t) = c :: t := by
  simp [dropSpaces, h]

theorem dropSpaces_lit2 (t : List Char) : dropSpaces (lit2 ++ t) = lit2 ++ t := by
  have h : lit2 = 'S' :: "ELECT 1 FROM user_roles".data := by decide
  rw [h, List.cons_append]
  exact dropSpaces_cons_of_not (by decide) _

theorem dropSpaces_lit3 (t : List Char) : dropSpaces (lit3 ++ t) = lit3 ++ t := by
  have h : lit3 = 'W' :: ("HERE user_id = auth.uid() AND role = ".data ++
      [quoteChar] ++ "admin".data ++ [quoteChar]) := by decide
  rw [h, List.cons_append]
  exact dropSpaces_cons_of_not (by decide) _

theorem dropSpaces_lit4 (t : List Char) : dropSpaces (lit4 ++ t) = lit4 ++ t := by
  have h : lit4 = ')' :: [] := by decide
  rw [h, List.cons_append]
  exact dropSpaces_cons_of_not (by decide) _

theorem matchPattern_of_parts {w₁ w₂ w₃ : List Char}
    (hw₁ : allSpace w₁) (hw₂ : allSpace w₂) (hw₃ : allSpace w₃) (r : List Char) :
    matchPattern (lit1 ++ (w₁ ++ (lit2 ++ (w₂ ++ (lit3 ++ (w₃ ++ (lit4 ++ r))))))) = some r := by
  unfold matchPattern
  rw [stripLit_pre lit1, Option.some_bind,
    dropSpaces_allSpace_append hw₁, dropSpaces_lit2, stripLit_pre lit2, Option.some_bind,
    dropSpaces_allSpace_append hw₂, dropSpaces_lit3, stripLit_pre lit3, Option.some_bind,
    dropSpaces_allSpace_append hw₃, dropSpaces_lit4, stripLit_pre lit4]

theorem matchPattern_iff {s r : List Char} :
    matchPattern s = some r ↔ ∃ m, MatchText m ∧ s = m ++ r := by
  constructor
  · intro h
    unfold matchPattern at h
    rcases h₁ : stripLit lit1 s with _ | s₁
    · rw [h₁] at h; simp at h
    rw [h₁, Option.some_bind] at h
    rcases h₂ : stripLit lit2 (dropSpaces s₁) with _ | s₂
    · rw [h₂] at h; simp at h
    rw [h₂, Option.some_bind] at h
    rcases h₃ : stripLit lit3 (dropSpaces s₂) with _ | s₃
    · rw [h₃] at h; simp at h
    rw [h₃, Option.some_bind] at h
    have e₁ : s = lit1 ++ s₁ := stripLit_eq.mp h₁
    obtain ⟨w₁, hw₁, e₂⟩ := dropSpaces_decomp s₁
    have e₂' : dropSpaces s₁ = lit2 ++ s₂ := stripLit_eq.mp h₂
    obtain ⟨w₂, hw₂, e₃⟩ := dropSpaces_decomp s₂
    have e₃' : dropSpaces s₂ = lit3 ++ s₃ := stripLit_eq.mp h₃
    obtain ⟨w₃, hw₃, e₄⟩ := dropSpaces_decomp s₃
    have e₄' : dropSpaces s₃ = lit4 ++ r := stripLit_eq.mp h
    refine ⟨lit1 ++ (w₁ ++ (lit2 ++ (w₂ ++ (lit3 ++ (w₃ ++ lit4))))),
      ⟨w₁, w₂, w₃, hw₁, hw₂, hw₃, rfl⟩, ?_⟩
    rw [e₁, e₂, e₂', e₃, e₃', e₄, e₄']
    simp
  · rintro ⟨m, ⟨w₁, w₂, w₃, hw₁, hw₂, hw₃, hm⟩, hs⟩
    subst hm
    rw [hs]
    have : (lit1 ++ (w₁ ++ (lit2 ++ (w₂ ++ (lit3 ++ (w₃ ++ lit4)))))) ++ r =
        lit1 ++ (w₁ ++ (lit2 ++ (w₂ ++ (lit3 ++ (w₃ ++ (lit4 ++ r)))))) := by
      simp [List.append_assoc]
    rw [this]
    exact matchPattern_of_parts hw₁ hw₂ hw₃ r

theorem isSpaceChar_ne_p {c : Char} (h : isSpaceChar c) : c ≠ 'p' := by
  rcases h with h | h | h | h | h | h <;> subst h <;> decide

theorem matchText_not_p {m : List Char} (hm : MatchText m) : 'p' ∉ m := by
  obtain ⟨w₁, w₂, w₃, hw₁, hw₂, hw₃, rfl⟩ := hm
  intro hp
  simp only [List.mem_append] at hp
  rcases hp with hp | hp | hp | hp | hp | hp | hp
  · exact absurd hp (by decide)
  · exact isSpaceChar_ne_p (hw₁ _ hp) rfl
  · exact absurd hp (by decide)
  · exact isSpaceChar_ne_p (hw₂ _ hp) rfl
  · exact absurd hp (by decide)
  · exact isSpaceChar_ne_p (hw₃ _ hp) rfl
  · exact absurd hp (by decide)

theorem matchText_head {m : List Char} (hm : MatchText m) : ∃ t, m = 'E' :: t := by
  obtain ⟨w₁, w₂, w₃, _, _, _, rfl⟩ := hm
  have h : lit1 = 'E' :: "XISTS (".data := by decide
  exact ⟨"XISTS (".data ++ (w₁ ++ (lit2 ++ (w₂ ++ (lit3 ++ (w₃ ++ lit4))))), by
    rw [h, List.cons_append]⟩

theorem matchText_ne_nil {m : List Char} (hm : MatchText m) : m ≠ [] := by
  obtain ⟨t, rfl⟩ := matchText_head hm
  exact List.cons_ne_nil _ _

theorem matchPattern_lt {s r : List Char} (h : matchPattern s = some r) :
    r.length < s.length := by
  obtain ⟨m, hm, rfl⟩ := matchPattern_iff.mp h
  obtain ⟨t, rfl⟩ := matchText_head hm
  simp [List.length_append]
  omega

theorem matchPattern_cons_E {c : Char} {t r : List Char}
    (h : matchPattern (c :: t) = some r) : c = 'E' := by
  obtain ⟨m, hm, hs⟩ := matchPattern_iff.mp h
  obtain ⟨t₂, rfl⟩ := matchText_head hm
  rw [List.cons_append] at hs
  exact (List.cons.injEq _ _ _ _ ▸ hs : _ ∧ _).1

theorem matchPattern_nil : matchPattern ([] : List Char) = none := by decide

/-- One pass of re.subn: scans the content left to right; at each
position either replaces a leftmost pattern match and resumes after it,
or keeps the character and moves one position right.  Returns the new
content together with the number of substitutions performed.  The fuel
argument only makes the recursion structural; it is never exhausted when
it starts at the length of the input. -/
def subnF : Nat → List Char → List Char × Nat
  | 0, s => (s, 0)
  | _ + 1, [] => ([], 0)
  | f + 1, c :: rest =>
    match matchPattern (c :: rest) with
    | some rem => (replacement ++ (subnF f rem).1, (subnF f rem).2 + 1)
    | none => (c :: (subnF f rest).1, (subnF f rest).2)

/-- re.subn on the whole content. -/
def subn (s : List Char) : List Char × Nat := subnF s.length s

/-- re.sub: the content produced by the substitution (new_content in the
source). -/
def reSub (s : List Char) : List Char := (subn s).1

/-- The length of re.findall: the same left-to-right scan counting the
non-overlapping matches (the replacements variable of the source). -/
def countF : Nat → List Char → Nat
  | 0, _ => 0
  | _ + 1, [] => 0
  | f + 1, c :: rest =>
    match matchPattern (c :: rest) with
    | some rem => countF f rem + 1
    | none => countF f rest

/-- Number of pattern matches found in the content by re.findall. -/
def countMatches (s : List Char) : Nat := countF s.length s

/-- Left-to-right count of non-overlapping occurrences of the literal
replacement string in a content. -/
def countOccF : Nat → List Char → Nat
  | 0, _ => 0
  | _ + 1, [] => 0
  | f + 1, c :: rest =>
    match stripLit replacement (c :: rest) with
    | some rem => countOccF f rem + 1
    | none => countOccF f rest

/-- Number of occurrences of the replacement string in a content. -/
def countOccR (s : List Char) : Nat := countOccF s.length s

theorem subnF_nil (f : Nat) : subnF f [] = ([], 0) := by cases f <;> rfl

theorem countF_nil (f : Nat) : countF f [] = 0 := by cases f <;> rfl

theorem countOccF_nil (f : Nat) : countOccF f [] = 0 := by cases f <;> rfl

theorem subnF_congr :
    ∀ (f g : Nat) (s : List Char), s.length ≤ f → s.length ≤ g → subnF f s = subnF g s := by
  intro f
  induction f with
  | zero =>
    intro g s hf _
    have hs : s = [] := List.eq_nil_of_length_eq_zero (Nat.le_zero.mp hf)
    rw [hs, subnF_nil, subnF_nil]
  | succ f ih =>
    intro g s hf hg
    cases s with
    | nil => rw [subnF_nil, subnF_nil]
    | cons c rest =>
      cases g with
      | zero => exact absurd hg (by simp)
      | succ g =>
        simp only [subnF]
        rcases h : matchPattern (c :: rest) with _ | rem
        · have h₁ : rest.length ≤ f := by simp at hf; omega
          have h₂ : rest.length ≤ g := by simp at hg; omega
          rw [ih g rest h₁ h₂]
        · have hlt := matchPattern_lt h
          have h₁ : rem.length ≤ f := by simp at hf hlt; omega
          have h₂ : rem.length ≤ g := by simp at hg hlt; omega
          dsimp only
          rw [ih g rem h₁ h₂]

theorem countF_congr :
    ∀ (f g : Nat) (s : List Char), s.length ≤ f → s.length ≤ g → countF f s = countF g s := by
  intro f
  induction f with
  | zero =>
    intro g s hf _
    have hs : s = [] := List.eq_nil_of_length_eq_zero (Nat.le_zero.mp hf)
    rw [hs, countF_nil, countF_nil]
  | succ f ih =>
    intro g s hf hg
    cases s with
    | nil => rw [countF_nil, countF_nil]
    | cons c rest =>
      cases g with
      | zero => exact absurd hg (by simp)
      | succ g =>
        simp only [countF]
        rcases h : matchPattern (c :: rest) with _ | rem
        · have h₁ : rest.length ≤ f := by simp at hf; omega
          have h₂ : rest.length ≤ g := by simp at hg; omega
          rw [ih g rest h₁ h₂]
        · have hlt := matchPattern_lt h
          have h₁ : rem.length ≤ f := by simp at hf hlt; omega
          have h₂ : rem.length ≤ g := by simp at hg hlt; omega
          dsimp only
          rw [ih g rem h₁ h₂]

theorem stripLitR_lt {s r : List Char} (h : stripLit replacement s = some r) :
    r.length < s.length := by
  rw [stripLit_eq.mp h]
  have : replacement.length = 17 := by decide
  simp [List.length_append, this]

theorem countOccF_congr :
    ∀ (f g : Nat) (s : List Char), s.length ≤ f → s.length ≤ g → countOccF f s = countOccF g s := by
  intro f
  induction f with
  | zero =>
    intro g s hf _
    have hs : s = [] := List.eq_nil_of_length_eq_zero (Nat.le_zero.mp hf)
    rw [hs, countOccF_nil, countOccF_nil]
  | succ f ih =>
    intro g s hf hg
    cases s with
    | nil => rw [countOccF_nil, countOccF_nil]
    | cons c rest =>
      cases g with
      | zero => exact absurd hg (by simp)
      | succ g =>
        simp only [countOccF]
        rcases h : stripLit replacement (c :: rest) with _ | rem
        · have h₁ : rest.length ≤ f := by simp at hf; omega
          have h₂ : rest.length ≤ g := by simp at hg; omega
          rw [ih g rest h₁ h₂]
        · have hlt := stripLitR_lt h
          have h₁ : rem.length ≤ f := by simp at hf hlt; omega
          have h₂ : rem.length ≤ g := by simp at hg hlt; omega
          dsimp only
          rw [ih g rem h₁ h₂]

theorem matchText_matches {m : List Char} (hm : MatchText m) (t : List Char) :
    matchPattern (m ++ t) = some t :=
  matchPattern_iff.mpr ⟨m, hm, rfl⟩

theorem subn_nil : subn [] = ([], 0) := rfl

theorem subn_match {c : Char} {rest rem : List Char}
    (h : matchPattern (c :: rest) = some rem) :
    subn (c :: rest) = (replacement ++ (subn rem).1, (subn rem).2 + 1) := by
  have hlt := matchPattern_lt h
  have hle : rem.length ≤ rest.length := by simp at hlt; omega
  unfold subn
  simp only [List.length_cons, subnF, h]
  rw [subnF_congr rest.length rem.length rem hle (le_refl _)]

theorem subn_nomatch {c : Char} {rest : List Char}
    (h : matchPattern (c :: rest) = none) :
    subn (c :: rest) = (c :: (subn rest).1, (subn rest).2) := by
  unfold subn
  simp only [List.length_cons, subnF, h]

theorem countMatches_nil : countMatches [] = 0 := rfl

theorem countMatches_match {c : Char} {rest rem : List Char}
    (h : matchPattern (c :: rest) = some rem) :
    countMatches (c :: rest) = countMatches rem + 1 := by
  have hlt := matchPattern_lt h
  have hle : rem.length ≤ rest.length := by simp at hlt; omega
  unfold countMatches
  simp only [List.length_cons, countF, h]
  rw [countF_congr rest.length rem.length rem hle (le_refl _)]

theorem countMatches_nomatch {c : Char} {rest : List Char}
    (h : matchPattern (c :: rest) = none) :
    countMatches (c :: rest) = countMatches rest := by
  unfold countMatches
  simp only [List.length_cons, countF, h]

theorem countOccR_nil : countOccR [] = 0 := rfl

theorem countOccR_cons_some {c : Char} {rest rem : List Char}
    (h : stripLit replacement (c :: rest) = some rem) :
    countOccR (c :: rest) = countOccR rem + 1 := by
  have hlt := stripLitR_lt h
  have hle : rem.length ≤ rest.length := by simp at hlt; omega
  unfold countOccR
  simp only [List.length_cons, countOccF, h]
  rw [countOccF_congr rest.length rem.length rem hle (le_refl _)]

theorem countOccR_cons_none {c : Char} {rest : List Char}
    (h : stripLit replacement (c :: rest) = none) :
    countOccR (c :: rest) = countOccR rest := by
  unfold countOccR
  simp only [List.length_cons, countOccF, h]

theorem stripLitR_cons_ne {c : Char} (h : c ≠ 'p') (x : List Char) :
    stripLit replacement (c :: x) = none := by
  have hrep : replacement = 'p' :: "ublic.is_admin()".data := by decide
  rw [hrep]
  unfold stripLit
  rw [if_neg fun hh => h hh.symm]

theorem countOccR_rep_pre (t : List Char) : countOccR (replacement ++ t) = countOccR t + 1 := by
  have hrep : replacement = 'p' :: "ublic.is_admin()".data := by decide
  have hs : stripLit replacement (replacement ++ t) = some t := stripLit_pre _ _
  rw [hrep, List.cons_append] at hs ⊢
  exact countOccR_cons_some hs

theorem countOccR_append_not_p : ∀ (a t : List Char), 'p' ∉ a →
    countOccR (a ++ t) = countOccR t := by
  intro a
  induction a with
  | nil => intro t _; rfl
  | cons c a ih =>
    intro t hp
    have hc : c ≠ 'p' := fun h => hp (h ▸ List.mem_cons_self c a)
    have ha : 'p' ∉ a := fun h => hp (List.mem_cons_of_mem c h)
    rw [List.cons_append, countOccR_cons_none (stripLitR_cons_ne hc _), ih t ha]

theorem countMatches_eq_subn_snd (s : List Char) : countMatches s = (subn s).2 := by
  generalize hn : s.length = n
  induction n using Nat.strong_induction_on generalizing s with
  | _ n ih =>
    cases s with
    | nil => rfl
    | cons c rest =>
      rcases h : matchPattern (c :: rest) with _ | rem
      · rw [countMatches_nomatch h, subn_nomatch h]
        exact ih rest.length (by simp [← hn]) rest rfl
      · rw [countMatches_match h, subn_match h]
        have hlt := matchPattern_lt h
        have := ih rem.length (by omega) rem rfl
        simp [this]

theorem drop_append_of_le : ∀ (a b : List Char) (i : Nat), i ≤ a.length →
    (a ++ b).drop i = a.drop i ++ b := by
  intro a
  induction a with
  | nil =>
    intro b i hi
    simp at hi
    simp [hi]
  | cons c a ih =>
    intro b i hi
    cases i with
    | zero => simp
    | succ i =>
      simp only [List.cons_append, List.drop_succ_cons]
      exact ih b i (by simp at hi; omega)

theorem drop_append_of_ge : ∀ (a b : List Char) (i : Nat),
    (a ++ b).drop (a.length + i) = b.drop i := by
  intro a
  induction a with
  | nil => intro b i; simp
  | cons c a ih =>
    intro b i
    simp only [List.cons_append, List.length_cons]
    have : a.length + 1 + i = (a.length + i) + 1 := by omega
    rw [this, List.drop_succ_cons]
    exact ih b i

theorem scanSkip_subn : ∀ (a t : List Char),
    (∀ i < a.length, matchPattern (a.drop i ++ t) = none) →
    subn (a ++ t) = (a ++ (subn t).1, (subn t).2) := by
  intro a
  induction a with
  | nil => intro t _; simp
  | cons c a ih =>
    intro t h
    have h₀ : matchPattern (c :: (a ++ t)) = none := by
      have := h 0 (by simp)
      simpa using this
    rw [List.cons_append, subn_nomatch h₀,
      ih t fun i hi => by
        have := h (i + 1) (by simp; omega)
        simpa using this]
    simp

theorem subn_decomp (s : List Char) :
    (subn s = (s, 0) ∧ ∀ i, matchPattern (s.drop i) = none) ∨
    (∃ p m t, MatchText m ∧ s = p ++ (m ++ t) ∧
      (∀ i < p.length, matchPattern (s.drop i) = none) ∧
      subn s = (p ++ (replacement ++ (subn t).1), (subn t).2 + 1)) := by
  generalize hn : s.length = n
  induction n using Nat.strong_induction_on generalizing s with
  | _ n ih =>
    cases s with
    | nil =>
      left
      exact ⟨subn_nil, fun i => by simp [List.drop_nil, matchPattern_nil]⟩
    | cons c rest =>
      rcases h : matchPattern (c :: rest) with _ | rem
      · rcases ih rest.length (by simp [← hn]) rest rfl with ⟨hsub, hall⟩ | ⟨p, m, t, hm, hsplit, hnone, hsub⟩
        · left
          constructor
          · rw [subn_nomatch h, hsub]
          · intro i
            cases i with
            | zero => simpa using h
            | succ i => simpa using hall i
        · right
          refine ⟨c :: p, m, t, hm, by rw [hsplit, List.cons_append], ?_, ?_⟩
          · intro i hi
            cases i with
            | zero => simpa using h
            | succ i =>
              have := hnone i (by simp at hi; omega)
              simpa using this
          · rw [subn_nomatch h, hsub, List.cons_append]
      · right
        obtain ⟨m, hm, hs⟩ := matchPattern_iff.mp h
        refine ⟨[], m, rem, hm, by simpa using hs, by simp, ?_⟩
        rw [subn_match h]
        simp

theorem reSub_output_no_match (s : List Char) :
    ∀ i, matchPattern ((reSub s).drop i) = none := by
  generalize hn : s.length = n
  induction n using Nat.strong_induction_on generalizing s with
  | _ n ih =>
    cases s with
    | nil =>
      intro i
      simp [reSub, subn_nil, matchPattern_nil]
    | cons c rest =>
      rcases h : matchPattern (c :: rest) with _ | rem
      · have hrest : ∀ i, matchPattern ((reSub rest).drop i) = none :=
          ih rest.length (by simp [← hn]) rest rfl
        intro i
        unfold reSub
        rw [subn_nomatch h]
        cases i with
        | succ i => simpa using hrest i
        | zero =>
          simp only [List.drop_zero]
          rcases hout : matchPattern (c :: (subn rest).1) with _ | r
          · rfl
          exfalso
          obtain ⟨P, hP, hPr⟩ := matchPattern_iff.mp hout
          rcases subn_decomp rest with ⟨hsub, _⟩ | ⟨p, m, t, hm, hsplit, _, hsub⟩
          · rw [hsub] at hPr
            rw [hPr] at h
            rw [matchText_matches hP r] at h
            exact Option.noConfusion h
          · rw [hsub] at hPr
            have hPr' : (c :: p) ++ (replacement ++ (subn t).1) = P ++ r := by
              rw [← hPr, List.cons_append]
            rcases List.append_eq_append_iff.mp hPr' with ⟨u, hu₁, hu₂⟩ | ⟨v, hv₁, hv₂⟩
            · cases u with
              | nil =>
                simp at hu₁
                have : c :: rest = P ++ (m ++ t) := by
                  rw [hsplit, hu₁]
                  rfl
                rw [this, matchText_matches hP (m ++ t)] at h
                exact Option.noConfusion h
              | cons x u =>
                have hx : x = 'p' := by
                  have hrep : replacement = 'p' :: "ublic.is_admin()".data := by decide
                  rw [hrep, List.cons_append] at hu₂
                  exact (List.cons.injEq _ _ _ _ ▸ hu₂.symm : _ ∧ _).1
                have : 'p' ∈ P := by
                  rw [hu₁, hx]
                  simp
                exact matchText_not_p hP this
            · have : c :: rest = (P ++ v) ++ (m ++ t) := by
                rw [hsplit, ← hv₁, List.cons_append]
              rw [List.append_assoc] at this
              rw [this, matchText_matches hP (v ++ (m ++ t))] at h
              exact Option.noConfusion h
      · intro i
        have hlt := matchPattern_lt h
        have hrem : ∀ j, matchPattern ((reSub rem).drop j) = none :=
          ih rem.length (by omega) rem rfl
        unfold reSub
        rw [subn_match h]
        dsimp only
        rcases Nat.lt_or_ge i replacement.length with hi | hi
        · rw [drop_append_of_le replacement _ i (Nat.le_of_lt hi)]
          rcases hd : (replacement.drop i) with _ | ⟨x, xs⟩
          · have : replacement.length ≤ i := by
              have := List.drop_eq_nil_iff.mp hd
              simpa using this
            omega
          rw [List.cons_append]
          rcases hout : matchPattern (x :: (xs ++ (subn rem).1)) with _ | r
          · rfl
          exfalso
          have hxE : x = 'E' := matchPattern_cons_E hout
          have hxmem : x ∈ replacement := by
            have : x ∈ replacement.drop i := by rw [hd]; simp
            exact List.mem_of_mem_drop this
          rw [hxE] at hxmem
          exact absurd hxmem (by decide)
        · obtain ⟨j, hj⟩ : ∃ j, i = replacement.length + j :=
            ⟨i - replacement.length, by omega⟩
          rw [hj, drop_append_of_ge]
          exact hrem j

theorem subn_of_no_matches {s : List Char}
    (h : ∀ i, matchPattern (s.drop i) = none) : subn s = (s, 0) := by
  rcases subn_decomp s with ⟨hsub, _⟩ | ⟨p, m, t, hm, hsplit, _, _⟩
  · exact hsub
  · exfalso
    have hdrop : s.drop p.length = m ++ t := by
      rw [hsplit]
      simp
    have := h p.length
    rw [hdrop, matchText_matches hm t] at this
    exact Option.noConfusion this

theorem countMatches_eq_zero_iff {s : List Char} :
    countMatches s = 0 ↔ ∀ i, matchPattern (s.drop i) = none := by
  constructor
  · intro h
    rcases subn_decomp s with ⟨_, hall⟩ | ⟨p, m, t, _, _, _, hsub⟩
    · exact hall
    · exfalso
      rw [countMatches_eq_subn_snd, hsub] at h
      simp at h
  · intro h
    rw [countMatches_eq_subn_snd, subn_of_no_matches h]

theorem no_match_of_bounded {s : List Char}
    (h : ∀ i < s.length, matchPattern (s.drop i) = none) :
    ∀ i, matchPattern (s.drop i) = none := by
  intro i
  rcases Nat.lt_or_ge i s.length with hi | hi
  · exact h i hi
  · rw [List.drop_eq_nil_of_le hi, matchPattern_nil]

theorem reSub_of_zero_count {s : List Char} (h : countMatches s = 0) : reSub s = s := by
  unfold reSub
  rw [subn_of_no_matches (countMatches_eq_zero_iff.mp h)]

theorem countMatches_reSub (s : List Char) : countMatches (reSub s) = 0 :=
  countMatches_eq_zero_iff.mpr (reSub_output_no_match s)

theorem reSub_idem (s : List Char) : reSub (reSub s) = reSub s :=
  reSub_of_zero_count (countMatches_reSub s)


theorem drop_one_then : ∀ (l : List Char) (k : Nat), (l.drop 1).drop k = l.drop (k + 1) := by
  intro l k
  cases l with
  | nil => simp
  | cons a l => simp

theorem countOccR_reSub (s : List Char) :
    countOccR (reSub s) = (subn s).2 + countOccR s := by
  generalize hn : s.length = n
  induction n using Nat.strong_induction_on generalizing s with
  | _ n ih =>
    have hR : replacement.length = 17 := by decide
    have hrep : replacement = 'p' :: "ublic.is_admin()".data := by decide
    cases s with
    | nil => simp [reSub, subn_nil, countOccR_nil]
    | cons c rest =>
      have hn' : rest.length + 1 = n := by simpa using hn
      rcases h : matchPattern (c :: rest) with _ | rem
      · -- no pattern match at the head position
        unfold reSub
        rw [subn_nomatch h]
        dsimp only
        rcases subn_decomp rest with ⟨hsub, _⟩ | ⟨p, m, t, hm, hsplit, hnone, hsub⟩
        · -- no match anywhere in rest: the output equals the input
          rw [hsub]
          simp
        · rw [hsub]
          dsimp only
          have hcons : c :: rest = (c :: p) ++ (m ++ t) := by
            rw [hsplit, List.cons_append]
          obtain ⟨m₂, hm₂⟩ := matchText_head hm
          have hmt : matchPattern (m ++ t) = some t := matchText_matches hm t
          have hmt' : matchPattern ('E' :: (m₂ ++ t)) = some t := by
            rw [← List.cons_append, ← hm₂]
            exact hmt
          have hsubmt : subn (m ++ t) = (replacement ++ (subn t).1, (subn t).2 + 1) := by
            rw [hm₂, List.cons_append]
            exact subn_match hmt'
          have hlsplit : rest.length = p.length + (m.length + t.length) := by
            rw [hsplit]
            simp
          rcases hstrip : stripLit replacement (c :: rest) with _ | r₀
          · -- no replacement occurrence at the head position either
            have hout : stripLit replacement (c :: (p ++ (replacement ++ (subn t).1))) = none := by
              rcases hy : stripLit replacement (c :: (p ++ (replacement ++ (subn t).1))) with _ | y
              · rfl
              exfalso
              have hy' : (c :: p) ++ (replacement ++ (subn t).1) = replacement ++ y := by
                rw [List.cons_append]
                exact stripLit_eq.mp hy
              rcases List.append_eq_append_iff.mp hy' with ⟨u, hu₁, hu₂⟩ | ⟨v, hv₁, hv₂⟩
              · cases u with
                | nil =>
                  simp at hu₁
                  have hcontra : stripLit replacement (c :: rest) = some (m ++ t) := by
                    rw [hcons, hu₁]
                    exact stripLit_pre _ _
                  rw [hcontra] at hstrip
                  exact Option.noConfusion hstrip
                | cons x u' =>
                  have hx : x = 'p' := by
                    rw [hrep, List.cons_append] at hu₂
                    exact (List.cons.injEq _ _ _ _ ▸ hu₂.symm : _ ∧ _).1
                  have hmem1 : x ∈ replacement.drop (p.length + 1) := by
                    have hd : replacement.drop ((c :: p).length) = x :: u' := by
                      rw [hu₁]
                      simp
                    have hlen : (c :: p).length = p.length + 1 := by simp
                    rw [hlen] at hd
                    rw [hd]
                    simp
                  have hmem2 : x ∈ replacement.drop 1 := by
                    rw [← drop_one_then] at hmem1
                    exact List.mem_of_mem_drop hmem1
                  rw [hx] at hmem2
                  exact absurd hmem2 (by decide)
              · have hcontra : stripLit replacement (c :: rest) = some (v ++ (m ++ t)) := by
                  rw [hcons, hv₁, List.append_assoc]
                  exact stripLit_pre _ _
                rw [hcontra] at hstrip
                exact Option.noConfusion hstrip
            rw [countOccR_cons_none hout, countOccR_cons_none hstrip]
            have hih := ih rest.length (by omega) rest rfl
            have hresub : reSub rest = p ++ (replacement ++ (subn t).1) := by
              unfold reSub
              rw [hsub]
            rw [hresub, hsub] at hih
            simpa using hih
          · -- a replacement occurrence sits at the head position
            have hc₀ : c :: rest = replacement ++ r₀ := stripLit_eq.mp hstrip
            have happ : (c :: p) ++ (m ++ t) = replacement ++ r₀ := by
              rw [← hcons]
              exact hc₀
            have hr₀len : r₀.length + 17 = rest.length + 1 := by
              have := congrArg List.length hc₀
              simp [hR] at this
              omega
            rcases List.append_eq_append_iff.mp happ with ⟨u, hu₁, hu₂⟩ | ⟨v, hv₁, hv₂⟩
            · cases u with
              | cons x u' =>
                exfalso
                have hx : x = 'E' := by
                  rw [hm₂] at hu₂
                  simp only [List.cons_append] at hu₂
                  exact ((List.cons.injEq _ _ _ _).mp hu₂).1.symm
                have hxmem : x ∈ replacement := by
                  rw [hu₁]
                  simp
                rw [hx] at hxmem
                exact absurd hxmem (by decide)
              | nil =>
                simp at hu₁ hu₂
                have hout : stripLit replacement (c :: (p ++ (replacement ++ (subn t).1)))
                    = some (replacement ++ (subn t).1) := by
                  have hcp : c :: (p ++ (replacement ++ (subn t).1))
                      = replacement ++ (replacement ++ (subn t).1) := by
                    rw [← List.cons_append, ← hu₁]
                  rw [hcp]
                  exact stripLit_pre _ _
                rw [countOccR_cons_some hout, countOccR_rep_pre]
                have htlen : t.length < n := by omega
                have hih := ih t.length htlen t rfl
                unfold reSub at hih
                have hcr : countOccR (c :: rest) = countOccR (m ++ t) + 1 := by
                  rw [countOccR_cons_some hstrip, ← hu₂]
                have hmtocc : countOccR (m ++ t) = countOccR t :=
                  countOccR_append_not_p m t (matchText_not_p hm)
                rw [hcr, hmtocc, hih]
                omega
            · -- the head occurrence ends inside the scanned clean part
              have hvNone : ∀ j < v.length, matchPattern (v.drop j ++ (m ++ t)) = none := by
                intro j hj
                have hp : p = replacement.drop 1 ++ v := by
                  have hdv := congrArg (List.drop 1) hv₁
                  rw [drop_append_of_le replacement v 1 (by omega)] at hdv
                  simpa using hdv
                have hdlen : (replacement.drop 1).length = 16 := by
                  simp [hR]
                have hidx : (replacement.drop 1).length + j < p.length := by
                  rw [hp]
                  simp [List.length_append]
                  omega
                have h1 := hnone ((replacement.drop 1).length + j) hidx
                rw [hsplit, drop_append_of_le p (m ++ t) _ (le_of_lt hidx)] at h1
                rw [hp, drop_append_of_ge (replacement.drop 1) v j] at h1
                exact h1
              have hscan := scanSkip_subn v (m ++ t) hvNone
              rw [hsubmt] at hscan
              dsimp only at hscan
              have hr₀n : r₀.length < n := by omega
              have hih := ih r₀.length hr₀n (v ++ (m ++ t)) (by rw [← hv₂])
              unfold reSub at hih
              rw [hscan] at hih
              dsimp only at hih
              have hout : stripLit replacement (c :: (p ++ (replacement ++ (subn t).1)))
                  = some (v ++ (replacement ++ (subn t).1)) := by
                have hcp : c :: (p ++ (replacement ++ (subn t).1))
                    = replacement ++ (v ++ (replacement ++ (subn t).1)) := by
                  rw [← List.cons_append, hv₁, List.append_assoc]
                rw [hcp]
                exact stripLit_pre _ _
              rw [countOccR_cons_some hout, hih]
              have hcr : countOccR (c :: rest) = countOccR (v ++ (m ++ t)) + 1 := by
                rw [countOccR_cons_some hstrip, hv₂]
              rw [hcr]
              omega
      · -- a pattern match at the head position
        obtain ⟨m, hm, hs⟩ := matchPattern_iff.mp h
        unfold reSub
        rw [subn_match h]
        dsimp only
        rw [countOccR_rep_pre]
        have hlt := matchPattern_lt h
        have hih := ih rem.length (by simp at hlt; omega) rem rfl
        unfold reSub at hih
        rw [hih, hs, countOccR_append_not_p m rem (matchText_not_p hm)]
        omega

theorem countOccR_reSub_count (s : List Char) :
    countOccR (reSub s) = countMatches s + countOccR s := by
  rw [countMatches_eq_subn_snd]
  exact countOccR_reSub s

/-- A file present on disk.  The script reads and rewrites file contents;
ioError models an unhandled I/O or decoding error raised while the file
is being read (the script installs no exception handler, so such an
error aborts the whole run and the failing file keeps its content). -/
structure DiskFile where
  content : List Char
  ioError : Bool
deriving DecidableEq

/-- The file system visible to the script: each path either holds a file
or does not exist (os.path.exists). -/
def FS : Type := String → Option DiskFile

/-- The base directory of the script (variable migrations_dir). -/
def migrations_dir : String := "supabase/migrations"

/-- os.path.join of the base directory with a relative file name (none
of the script's file names is absolute, so join inserts one slash). -/
def pathOf (filename : String) : String := migrations_dir ++ "/" ++ filename

/-- The fixed file list of the script (variable files_to_fix). -/
def files_to_fix : List String :=
  [ r"20250807120000_create_performance_monitoring.sql",
    r"20250808120000_create_batch_jobs_and_webhook_monitoring.sql",
    r"20250808140000_create_migration_control_system.sql",
    r"20250808150000_create_production_validation_system.sql",
    r"20250808160000_create_global_optimization_system.sql",
    r"20250808170000_create_security_hardening_system.sql",
    r"20250808180000_create_connection_pooling_system.sql",
    r"20250808190000_create_performance_optimization_system.sql" ]

/-- Writing a file: the path now holds the new content (open with mode w
truncates and rewrites; a file just written reads back cleanly). -/
def updateFS (fs : FS) (p : String) (d : DiskFile) : FS :=
  fun q => if q = p then some d else fs q

/-- One iteration of the script's loop, for one file name: check
existence, report a missing file, otherwise print the Fixing line, read,
substitute, count, write, and print the count line.  An ioError file
raises after the Fixing line is printed and before anything is written;
the error value carries the state and output at the moment of the raise. -/
def processFile (fs : FS) (filename : String) :
    Except (FS × List String) (FS × List String) :=
  match fs (pathOf filename) with
  | none => Except.ok (fs, [ "File not found: " ++ filename ])
  | some d =>
    if d.ioError then
      Except.error (fs, [ "Fixing " ++ filename ++ "..." ])
    else
      Except.ok (updateFS fs (pathOf filename) ⟨reSub d.content, false⟩,
        [ "Fixing " ++ filename ++ "...",
          "  Made " ++ toString (countMatches d.content) ++ " replacements" ])

/-- The script's loop over a list of file names, strictly in order; an
uncaught error aborts the loop, keeping the output printed so far. -/
def runFiles : FS → List String → Except (FS × List String) (FS × List String)
  | fs, [] => Except.ok (fs, [])
  | fs, fn :: rest =>
    match processFile fs fn with
    | Except.error e => Except.error e
    | Except.ok (fs₁, out) =>
      match runFiles fs₁ rest with
      | Except.error (fs₂, out₂) => Except.error (fs₂, out ++ out₂)
      | Except.ok (fs₂, out₂) => Except.ok (fs₂, out ++ out₂)

/-- The whole script: the loop over files_to_fix followed by the final
Done! line, which is only printed when no error aborted the loop.
Returns the final file system and the console output. -/
def runScript (fs : FS) : FS × List String :=
  match runFiles fs files_to_fix with
  | Except.ok (fs₁, out) => (fs₁, out ++ [ "Done!" ])
  | Except.error (fs₁, out) => (fs₁, out)

/-- The console block the script prints for one file name. -/
def reportFor (fs : FS) (fn : String) : List String :=
  match fs (pathOf fn) with
  | some d =>
    [ "Fixing " ++ fn ++ "...",
      "  Made " ++ toString (countMatches d.content) ++ " replacements" ]
  | none => [ "File not found: " ++ fn ]

/-- The concatenated console blocks for a list of file names, computed
against one fixed file system. -/
def reports (fs : FS) : List String → List String
  | [] => []
  | fn :: rest => reportFor fs fn ++ reports fs rest

/-- No file of the file system raises on read. -/
def errorFree (fs : FS) : Prop := ∀ p d, fs p = some d → d.ioError = false

theorem paths_nodup : ((files_to_fix.map pathOf).Nodup) := by decide

theorem updateFS_same (fs : FS) (p : String) (d : DiskFile) : updateFS fs p d p = some d := by
  simp [updateFS]

theorem updateFS_other (fs : FS) (p : String) (d : DiskFile) {q : String} (h : q ≠ p) :
    updateFS fs p d q = fs q := by
  simp [updateFS, h]

theorem errorFree_update {fs : FS} (hef : errorFree fs) (p : String) (c : List Char) :
    errorFree (updateFS fs p ⟨c, false⟩) := by
  intro q d h
  unfold updateFS at h
  by_cases hq : q = p
  · rw [if_pos hq] at h
    cases h
    rfl
  · rw [if_neg hq] at h
    exact hef q d h

theorem reportFor_congr {fsA fsB : FS} {fn : String}
    (h : fsA (pathOf fn) = fsB (pathOf fn)) : reportFor fsA fn = reportFor fsB fn := by
  unfold reportFor
  rw [h]

theorem reports_congr {fsA fsB : FS} :
    ∀ {names : List String}, (∀ g ∈ names, fsA (pathOf g) = fsB (pathOf g)) →
    reports fsA names = reports fsB names := by
  intro names
  induction names with
  | nil => intro _; rfl
  | cons g rest ih =>
    intro h
    unfold reports
    rw [reportFor_congr (h g (List.mem_cons_self g rest)),
      ih fun x hx => h x (List.mem_cons_of_mem g hx)]

theorem mem_reports {fs : FS} {names : List String} {fn : String} {l : String}
    (hfn : fn ∈ names) (hl : l ∈ reportFor fs fn) : l ∈ reports fs names := by
  induction names with
  | nil => exact absurd hfn (List.not_mem_nil fn)
  | cons g rest ih =>
    unfold reports
    rcases List.mem_cons.mp hfn with h | h
    · exact List.mem_append.mpr (Or.inl (h ▸ hl))
    · exact List.mem_append.mpr (Or.inr (ih h))

theorem processFile_none {fs : FS} {fn : String} (h : fs (pathOf fn) = none) :
    processFile fs fn = Except.ok (fs, [ "File not found: " ++ fn ]) := by
  unfold processFile
  rw [h]

theorem processFile_found {fs : FS} {fn : String} {d : DiskFile}
    (h : fs (pathOf fn) = some d) (he : d.ioError = false) :
    processFile fs fn =
      Except.ok (updateFS fs (pathOf fn) ⟨reSub d.content, false⟩, reportFor fs fn) := by
  unfold processFile reportFor
  rw [h]
  simp [he]

theorem processFile_err {fs : FS} {fn : String} {d : DiskFile}
    (h : fs (pathOf fn) = some d) (he : d.ioError = true) :
    processFile fs fn = Except.error (fs, [ "Fixing " ++ fn ++ "..." ]) := by
  unfold processFile
  rw [h]
  simp [he]

theorem runFiles_cons_err {fs : FS} {fn : String} {rest : List String} {e : FS × List String}
    (hp : processFile fs fn = Except.error e) :
    runFiles fs (fn :: rest) = Except.error e := by
  unfold runFiles
  rw [hp]

theorem runFiles_cons_ok_ok {fs fs₁ fs₂ : FS} {fn : String} {rest : List String}
    {out out₂ : List String}
    (hp : processFile fs fn = Except.ok (fs₁, out))
    (hr : runFiles fs₁ rest = Except.ok (fs₂, out₂)) :
    runFiles fs (fn :: rest) = Except.ok (fs₂, out ++ out₂) := by
  unfold runFiles
  rw [hp]
  dsimp only
  rw [hr]

theorem runFiles_cons_ok_err {fs fs₁ fs₂ : FS} {fn : String} {rest : List String}
    {out out₂ : List String}
    (hp : processFile fs fn = Except.ok (fs₁, out))
    (hr : runFiles fs₁ rest = Except.error (fs₂, out₂)) :
    runFiles fs (fn :: rest) = Except.error (fs₂, out ++ out₂) := by
  unfold runFiles
  rw [hp]
  dsimp only
  rw [hr]

theorem reports_cons (fs : FS) (fn : String) (rest : List String) :
    reports fs (fn :: rest) = reportFor fs fn ++ reports fs rest := rfl

theorem runFiles_ok :
    ∀ (names : List String) (fs : FS), errorFree fs → ((names.map pathOf).Nodup) →
    ∃ fs₁, runFiles fs names = Except.ok (fs₁, reports fs names) ∧ errorFree fs₁ ∧
      (∀ p, p ∉ names.map pathOf → fs₁ p = fs p) ∧
      (∀ g ∈ names, ∀ d, fs (pathOf g) = some d →
        fs₁ (pathOf g) = some ⟨reSub d.content, false⟩) ∧
      (∀ g ∈ names, fs (pathOf g) = none → fs₁ (pathOf g) = none) := by
  intro names
  induction names with
  | nil =>
    intro fs hef _
    exact ⟨fs, rfl, hef, fun p _ => rfl,
      fun g hg => absurd hg (List.not_mem_nil g),
      fun g hg => absurd hg (List.not_mem_nil g)⟩
  | cons fn rest ih =>
    intro fs hef hnd
    have hnd' : (pathOf fn :: rest.map pathOf).Nodup := by simpa using hnd
    rcases List.nodup_cons.mp hnd' with ⟨hnotin, hndr⟩
    rcases hfs : fs (pathOf fn) with _ | d
    · obtain ⟨fs₂, hrun, hef₂, hun, hsome, hnone⟩ := ih fs hef hndr
      have hrep : reportFor fs fn = [ "File not found: " ++ fn ] := by
        unfold reportFor
        rw [hfs]
      refine ⟨fs₂, ?_, hef₂, ?_, ?_, ?_⟩
      · rw [runFiles_cons_ok_ok (processFile_none hfs) hrun, reports_cons, hrep]
      · intro p hp
        have : p ∉ rest.map pathOf := fun h => hp (by simp [h])
        exact hun p this
      · intro g hg d hd
        rcases List.mem_cons.mp hg with h | h
        · subst h
          rw [hfs] at hd
          exact Option.noConfusion hd
        · exact hsome g h d hd
      · intro g hg hd
        rcases List.mem_cons.mp hg with h | h
        · subst h
          rw [hun (pathOf g) hnotin]
          exact hd
        · exact hnone g h hd
    · have he : d.ioError = false := hef _ _ hfs
      have hef₁ : errorFree (updateFS fs (pathOf fn) ⟨reSub d.content, false⟩) :=
        errorFree_update hef _ _
      obtain ⟨fs₂, hrun, hef₂, hun, hsome, hnone⟩ :=
        ih (updateFS fs (pathOf fn) ⟨reSub d.content, false⟩) hef₁ hndr
      have hagree : ∀ g ∈ rest,
          updateFS fs (pathOf fn) ⟨reSub d.content, false⟩ (pathOf g) = fs (pathOf g) := by
        intro g hg
        have hne : pathOf g ≠ pathOf fn := fun h =>
          hnotin (h ▸ List.mem_map_of_mem pathOf hg)
        exact updateFS_other fs _ _ hne
      refine ⟨fs₂, ?_, hef₂, ?_, ?_, ?_⟩
      · rw [runFiles_cons_ok_ok (processFile_found hfs he) hrun, reports_cons,
          reports_congr hagree]
      · intro p hp
        have hp₁ : p ∉ rest.map pathOf := fun h => hp (by simp [h])
        have hp₂ : p ≠ pathOf fn := fun h => hp (by simp [h])
        rw [hun p hp₁]
        exact updateFS_other fs _ _ hp₂
      · intro g hg d₀ hd
        rcases List.mem_cons.mp hg with h | h
        · subst h
          rw [hfs] at hd
          cases hd
          rw [hun (pathOf g) hnotin]
          exact updateFS_same fs _ _
        · have := hsome g h d₀ (by rw [hagree g h]; exact hd)
          exact this
      · intro g hg hd
        rcases List.mem_cons.mp hg with h | h
        · subst h
          rw [hfs] at hd
          exact Option.noConfusion hd
        · exact hnone g h (by rw [hagree g h]; exact hd)

theorem runScript_ok {fs : FS} (hef : errorFree fs) :
    ∃ fs₁, runScript fs = (fs₁, reports fs files_to_fix ++ [ "Done!" ]) ∧ errorFree fs₁ ∧
      (∀ p, p ∉ files_to_fix.map pathOf → fs₁ p = fs p) ∧
      (∀ g ∈ files_to_fix, ∀ d, fs (pathOf g) = some d →
        fs₁ (pathOf g) = some ⟨reSub d.content, false⟩) ∧
      (∀ g ∈ files_to_fix, fs (pathOf g) = none → fs₁ (pathOf g) = none) := by
  obtain ⟨fs₁, hrun, hef₁, hun, hsome, hnone⟩ := runFiles_ok files_to_fix fs hef paths_nodup
  refine ⟨fs₁, ?_, hef₁, hun, hsome, hnone⟩
  unfold runScript
  rw [hrun]

theorem runFiles_err :
    ∀ (a : List String) (fs : FS) {fn : String} {b : List String} {dN : DiskFile},
    (((a ++ fn :: b).map pathOf).Nodup) →
    (∀ g ∈ a, ∀ d, fs (pathOf g) = some d → d.ioError = false) →
    fs (pathOf fn) = some dN → dN.ioError = true →
    ∃ fs₁, runFiles fs (a ++ fn :: b) =
        Except.error (fs₁, reports fs a ++ [ "Fixing " ++ fn ++ "..." ]) ∧
      (∀ p, p ∉ a.map pathOf → fs₁ p = fs p) ∧
      (∀ g ∈ a, ∀ d, fs (pathOf g) = some d →
        fs₁ (pathOf g) = some ⟨reSub d.content, false⟩) := by
  intro a
  induction a with
  | nil =>
    intro fs fn b dN _ _ hfsN herr
    refine ⟨fs, ?_, fun p _ => rfl, fun g hg => absurd hg (List.not_mem_nil g)⟩
    rw [List.nil_append, runFiles_cons_err (processFile_err hfsN herr)]
    rfl
  | cons g a ih =>
    intro fs fn b dN hnd ha hfsN herr
    have hnd' : (pathOf g :: ((a ++ fn :: b).map pathOf)).Nodup := by simpa using hnd
    rcases List.nodup_cons.mp hnd' with ⟨hnotin, hndr⟩
    have hfnmem : pathOf fn ∈ (a ++ fn :: b).map pathOf :=
      List.mem_map_of_mem pathOf (List.mem_append.mpr (Or.inr (List.mem_cons_self fn b)))
    have hfnne : pathOf fn ≠ pathOf g := fun h => hnotin (h ▸ hfnmem)
    rcases hfs : fs (pathOf g) with _ | d
    · obtain ⟨fs₁, hrun, hun, hsome⟩ := ih fs hndr
        (fun x hx d hd => ha x (List.mem_cons_of_mem g hx) d hd) hfsN herr
      have hrep : reportFor fs g = [ "File not found: " ++ g ] := by
        unfold reportFor
        rw [hfs]
      refine ⟨fs₁, ?_, ?_, ?_⟩
      · rw [List.cons_append, runFiles_cons_ok_err (processFile_none hfs) hrun,
          reports_cons, hrep]
        simp
      · intro p hp
        exact hun p fun h => hp (by simp [h])
      · intro x hx d hd
        rcases List.mem_cons.mp hx with h | h
        · subst h
          rw [hfs] at hd
          exact Option.noConfusion hd
        · exact hsome x h d hd
    · have he : d.ioError = false := ha g (List.mem_cons_self g a) d hfs
      have hagree : ∀ x, pathOf x ∈ (a ++ fn :: b).map pathOf →
          updateFS fs (pathOf g) ⟨reSub d.content, false⟩ (pathOf x) = fs (pathOf x) := by
        intro x hx
        exact updateFS_other fs _ _ fun h => hnotin (h ▸ hx)
      obtain ⟨fs₁, hrun, hun, hsome⟩ := ih (updateFS fs (pathOf g) ⟨reSub d.content, false⟩)
        hndr
        (fun x hx d₀ hd => by
          rw [hagree x (List.mem_map_of_mem pathOf (List.mem_append.mpr (Or.inl hx)))] at hd
          exact ha x (List.mem_cons_of_mem g hx) d₀ hd)
        (by rw [hagree fn hfnmem]; exact hfsN) herr
      have hagree' : ∀ x ∈ a,
          updateFS fs (pathOf g) ⟨reSub d.content, false⟩ (pathOf x) = fs (pathOf x) :=
        fun x hx => hagree x (List.mem_map_of_mem pathOf (List.mem_append.mpr (Or.inl hx)))
      refine ⟨fs₁, ?_, ?_, ?_⟩
      · rw [List.cons_append, runFiles_cons_ok_err (processFile_found hfs he) hrun,
          reports_cons, reports_congr hagree']
        simp
      · intro p hp
        have hp₁ : p ∉ a.map pathOf := fun h => hp (by simp [h])
        have hp₂ : p ≠ pathOf g := fun h => hp (by simp [h])
        rw [hun p hp₁]
        exact updateFS_other fs _ _ hp₂
      · intro x hx d₀ hd
        rcases List.mem_cons.mp hx with h | h
        · subst h
          rw [hfs] at hd
          cases hd
          have hxnotin : pathOf x ∉ a.map pathOf := by
            intro hmem
            exact hnotin (by
              rcases List.mem_map.mp hmem with ⟨y, hy, hxy⟩
              exact hxy ▸ List.mem_map_of_mem pathOf (List.mem_append.mpr (Or.inl hy)))
          rw [hun (pathOf x) hxnotin]
          exact updateFS_same _ _ _
        · have hd' : updateFS fs (pathOf g) ⟨reSub d.content, false⟩ (pathOf x) = some d₀ := by
            rw [hagree' x h]
            exact hd
          exact hsome x h d₀ hd'

theorem runScript_err {fs : FS} {a : List String} {fn : String} {b : List String}
    {dN : DiskFile} (hsplit : files_to_fix = a ++ fn :: b)
    (ha : ∀ g ∈ a, ∀ d, fs (pathOf g) = some d → d.ioError = false)
    (hfsN : fs (pathOf fn) = some dN) (herr : dN.ioError = true) :
    ∃ fs₁, runScript fs = (fs₁, reports fs a ++ [ "Fixing " ++ fn ++ "..." ]) ∧
      (∀ p, p ∉ a.map pathOf → fs₁ p = fs p) ∧
      (∀ g ∈ a, ∀ d, fs (pathOf g) = some d →
        fs₁ (pathOf g) = some ⟨reSub d.content, false⟩) := by
  have hnd : (((a ++ fn :: b).map pathOf).Nodup) := by
    rw [← hsplit]
    exact paths_nodup
  obtain ⟨fs₁, hrun, hun, hsome⟩ := runFiles_err a fs hnd ha hfsN herr
  refine ⟨fs₁, ?_, hun, hsome⟩
  unfold runScript
  rw [hsplit, hrun]

theorem fixing_head (fn : String) : ( "Fixing " ++ fn ++ "..." ).data.head? = some 'F' := by
  cases fn with
  | mk l => rfl

theorem made_head (n : Nat) :
    ( "  Made " ++ toString n ++ " replacements" ).data.head? = some ' ' := by
  cases h : toString n with
  | mk l => rfl

theorem notfound_head (fn : String) :
    ( "File not found: " ++ fn ).data.head? = some 'F' := by
  cases fn with
  | mk l => rfl

theorem ne_done_of_head {l : String} (h : l.data.head? ≠ some 'D') : l ≠ "Done!" := by
  intro he
  rw [he] at h
  exact h rfl

theorem reportFor_no_done (fs : FS) (g : String) : ∀ l ∈ reportFor fs g, l ≠ "Done!" := by
  intro l hl
  unfold reportFor at hl
  rcases hfs : fs (pathOf g) with _ | d
  · rw [hfs] at hl
    simp at hl
    subst hl
    exact ne_done_of_head (by rw [notfound_head]; decide)
  · rw [hfs] at hl
    simp at hl
    rcases hl with hl | hl <;> subst hl
    · exact ne_done_of_head (by rw [fixing_head]; decide)
    · exact ne_done_of_head (by rw [made_head]; decide)

theorem reports_no_done (fs : FS) :
    ∀ (names : List String), ∀ l ∈ reports fs names, l ≠ "Done!" := by
  intro names
  induction names with
  | nil => intro l hl; exact absurd hl (List.not_mem_nil l)
  | cons g rest ih =>
    intro l hl
    rw [reports_cons] at hl
    rcases List.mem_append.mp hl with h | h
    · exact reportFor_no_done fs g l h
    · exact ih l h

theorem reports_append_foldr (fs : FS) :
    ∀ (names : List String) (X : List String),
    reports fs names ++ X = names.foldr (fun fn acc => reportFor fs fn ++ acc) X := by
  intro names
  induction names with
  | nil => intro X; rfl
  | cons g rest ih =>
    intro X
    rw [reports_cons, List.append_assoc, ih X]
    rfl

/-- A single-line occurrence of the pattern, with one space in each of
the three whitespace gaps. -/
def occLine : List Char := lit1 ++ (' ' :: (lit2 ++ (' ' :: (lit3 ++ (' ' :: lit4)))))

theorem errorFree_single (path : String) (c : List Char) :
    errorFree (fun p => if p = path then some ⟨c, false⟩ else none) := by
  intro q d h
  dsimp only at h
  by_cases hq : q = path
  · rw [if_pos hq] at h
    cases h
    rfl
  · rw [if_neg hq] at h
    exact Option.noConfusion h

def c1name : String := r"20250807120000_create_performance_monitoring.sql"

def c1content : List Char := "CREATE POLICY x USING ( ".data ++ occLine ++ " );".data

def c1fs : FS := fun p => if p = pathOf c1name then some ⟨c1content, false⟩ else none

/-- C1: for every file of the fixed list that exists and whose content
has at least one pattern occurrence, the content written back is the
substituted content, and it has zero pattern occurrences: its findall
count is 0 and the pattern matches at no position of it. -/
theorem claim_C1 (fs : FS) (hef : errorFree fs) (fn : String) (hfn : fn ∈ files_to_fix)
    (d : DiskFile) (hd : fs (pathOf fn) = some d) (_hocc : 1 ≤ countMatches d.content) :
    (runScript fs).1 (pathOf fn) = some ⟨reSub d.content, false⟩ ∧
    countMatches (reSub d.content) = 0 ∧
    (∀ i, matchPattern ((reSub d.content).drop i) = none) := by
  obtain ⟨fs₁, hrs, _, _, hsome, _⟩ := runScript_ok hef
  refine ⟨?_, countMatches_reSub d.content, reSub_output_no_match d.content⟩
  rw [hrs]
  exact hsome fn hfn d hd

/-- C1 witness: a concrete file system holding one migration file whose
content contains one pattern occurrence. -/
theorem claim_C1_witness :
    errorFree c1fs ∧ c1name ∈ files_to_fix ∧ c1fs (pathOf c1name) = some ⟨c1content, false⟩ ∧
    1 ≤ countMatches c1content ∧
    ((runScript c1fs).1 (pathOf c1name) = some ⟨reSub c1content, false⟩ ∧
     countMatches (reSub c1content) = 0 ∧
     (∀ i, matchPattern ((reSub c1content).drop i) = none)) :=
  ⟨errorFree_single _ _, by decide, rfl, by decide,
    claim_C1 c1fs (errorFree_single _ _) c1name (by decide) ⟨c1content, false⟩ rfl (by decide)⟩

/-- A multi-line occurrence candidate whose whitespace sits between all
five token groups named by the spec, including a line break between
WHERE and the rest of its clause. -/
def c2ml : List Char :=
  lit1 ++ ("\n    ".data ++ (lit2 ++ ("\n    ".data ++ ("WHERE".data ++ ("\n        ".data ++
    ("user_id = auth.uid() AND role = ".data ++ ([quoteChar] ++ ("admin".data ++
      ([quoteChar] ++ ("\n".data ++ lit4))))))))))

/-- C2 counterexample: a single-line occurrence is matched and replaced,
but the multi-line occurrence with whitespace between WHERE and user_id
is not matched at all: the count is 0 and the content is unchanged,
refuting the claim that whitespace is tolerated between every pair of
the listed token groups. -/
theorem claim_C2_counterexample :
    countMatches occLine = 1 ∧ reSub occLine = replacement ∧
    countMatches c2ml = 0 ∧ reSub c2ml = c2ml := by decide

/-- C2 amended: the pattern tolerates arbitrary whitespace (including
newlines and none at all) in exactly three gaps: after EXISTS (, between
user_roles and WHERE, and between the quoted admin literal and the
closing parenthesis.  The text WHERE user_id = auth.uid() AND role =
followed by the quoted admin literal must appear verbatim, with exactly
one space between its words; in particular a line break after WHERE
defeats the match.  Occurrences of the tolerated shape are matched and
replaced identically to single-line occurrences. -/
theorem claim_C2_amended (w₁ w₂ w₃ : List Char)
    (h₁ : allSpace w₁) (h₂ : allSpace w₂) (h₃ : allSpace w₃) :
    countMatches (lit1 ++ (w₁ ++ (lit2 ++ (w₂ ++ (lit3 ++ (w₃ ++ lit4)))))) = 1 ∧
    reSub (lit1 ++ (w₁ ++ (lit2 ++ (w₂ ++ (lit3 ++ (w₃ ++ lit4)))))) = replacement := by
  have hm : MatchText (lit1 ++ (w₁ ++ (lit2 ++ (w₂ ++ (lit3 ++ (w₃ ++ lit4)))))) :=
    ⟨w₁, w₂, w₃, h₁, h₂, h₃, rfl⟩
  have hmatch := matchText_matches hm []
  rw [List.append_nil] at hmatch
  obtain ⟨t, ht⟩ := matchText_head hm
  rw [ht] at hmatch ⊢
  constructor
  · rw [countMatches_match hmatch]
    rfl
  · unfold reSub
    rw [subn_match hmatch, subn_nil]
    simp

/-- C2 witness: irregular whitespace runs in the three tolerated gaps. -/
theorem claim_C2_witness :
    allSpace ( "\n   ".data ) ∧ allSpace ( "\n\t ".data ) ∧ allSpace ( "\n".data ) ∧
    (countMatches (lit1 ++ ( "\n   ".data ++ (lit2 ++ ( "\n\t ".data ++
      (lit3 ++ ( "\n".data ++ lit4)))))) = 1 ∧
     reSub (lit1 ++ ( "\n   ".data ++ (lit2 ++ ( "\n\t ".data ++
      (lit3 ++ ( "\n".data ++ lit4)))))) = replacement) :=
  ⟨by decide, by decide, by decide,
    claim_C2_amended ( "\n   ".data ) ( "\n\t ".data ) ( "\n".data )
      (by decide) (by decide) (by decide)⟩

def c3name : String := r"20250808140000_create_migration_control_system.sql"

def c3content : List Char := "BEGIN; ".data ++ occLine ++ " COMMIT;".data

def c3fs : FS := fun p => if p = pathOf c3name then some ⟨c3content, false⟩ else none

/-- C3: the rewrite is idempotent.  Running the script a second time on
the file system produced by the first run changes nothing, and every
file present at the start of the second run has a zero match count, so
the second run reports 0 replacements for it; at the content level the
substitution applied twice equals the substitution applied once, and
substituted content never contains a match. -/
theorem claim_C3 (fs : FS) (hef : errorFree fs) :
    (∀ p, (runScript (runScript fs).1).1 p = (runScript fs).1 p) ∧
    (∀ fn ∈ files_to_fix, ∀ d, (runScript fs).1 (pathOf fn) = some d →
      countMatches d.content = 0) ∧
    (∀ s, reSub (reSub s) = reSub s) ∧ (∀ s, countMatches (reSub s) = 0) := by
  obtain ⟨fs₁, hrs, hef₁, hun, hsome, hnone⟩ := runScript_ok hef
  have hfs1 : (runScript fs).1 = fs₁ := by rw [hrs]
  obtain ⟨fs₂, hrs₂, _, hun₂, hsome₂, hnone₂⟩ := runScript_ok hef₁
  refine ⟨?_, ?_, reSub_idem, countMatches_reSub⟩
  · intro p
    rw [hfs1, hrs₂]
    dsimp only
    by_cases hp : p ∈ files_to_fix.map pathOf
    · obtain ⟨fn, hfn, rfl⟩ := List.mem_map.mp hp
      rcases hd : fs₁ (pathOf fn) with _ | d
      · exact hnone₂ fn hfn hd
      · rw [hsome₂ fn hfn d hd]
        rcases horig : fs (pathOf fn) with _ | d₀
        · rw [hnone fn hfn horig] at hd
          exact Option.noConfusion hd
        · rw [hsome fn hfn d₀ horig] at hd
          cases hd
          rw [reSub_idem]
    · exact hun₂ p hp
  · intro fn hfn d hd
    rw [hfs1] at hd
    rcases horig : fs (pathOf fn) with _ | d₀
    · rw [hnone fn hfn horig] at hd
      exact Option.noConfusion hd
    · rw [hsome fn hfn d₀ horig] at hd
      cases hd
      exact countMatches_reSub d₀.content

/-- C3 witness: a concrete file system with one existing file that
contains a pattern occurrence. -/
theorem claim_C3_witness :
    errorFree c3fs ∧
    ((∀ p, (runScript (runScript c3fs).1).1 p = (runScript c3fs).1 p) ∧
     (∀ fn ∈ files_to_fix, ∀ d, (runScript c3fs).1 (pathOf fn) = some d →
       countMatches d.content = 0) ∧
     (∀ s, reSub (reSub s) = reSub s) ∧ (∀ s, countMatches (reSub s) = 0)) :=
  ⟨errorFree_single _ _, claim_C3 c3fs (errorFree_single _ _)⟩

def c4name : String := r"20250808150000_create_production_validation_system.sql"

def c4content : List Char :=
  "ALTER POLICY y USING ( ".data ++ occLine ++ " OR ".data ++ occLine ++ " );".data

def c4fs : FS := fun p => if p = pathOf c4name then some ⟨c4content, false⟩ else none

/-- C4: for every existing file of the list, the reported count is the
findall count of the pattern over the original content, that count
equals the number of substitutions the substitution pass performs, and
the written content is the one produced by that pass. -/
theorem claim_C4 (fs : FS) (hef : errorFree fs) (fn : String) (hfn : fn ∈ files_to_fix)
    (d : DiskFile) (hd : fs (pathOf fn) = some d) :
    ( "  Made " ++ toString (countMatches d.content) ++ " replacements" ) ∈ (runScript fs).2 ∧
    (subn d.content).2 = countMatches d.content ∧
    (runScript fs).1 (pathOf fn) = some ⟨(subn d.content).1, false⟩ := by
  obtain ⟨fs₁, hrs, _, _, hsome, _⟩ := runScript_ok hef
  refine ⟨?_, (countMatches_eq_subn_snd d.content).symm, ?_⟩
  · rw [hrs]
    dsimp only
    refine List.mem_append.mpr (Or.inl ?_)
    refine mem_reports hfn ?_
    unfold reportFor
    rw [hd]
    simp
  · rw [hrs]
    exact hsome fn hfn d hd

set_option maxRecDepth 4000 in
/-- C4 witness: a file with two pattern occurrences. -/
theorem claim_C4_witness :
    errorFree c4fs ∧ c4name ∈ files_to_fix ∧ c4fs (pathOf c4name) = some ⟨c4content, false⟩ ∧
    (( "  Made " ++ toString (countMatches c4content) ++ " replacements" ) ∈ (runScript c4fs).2 ∧
     (subn c4content).2 = countMatches c4content ∧
     (runScript c4fs).1 (pathOf c4name) = some ⟨(subn c4content).1, false⟩) ∧
    countMatches c4content = 2 :=
  ⟨errorFree_single _ _, by decide, rfl,
    claim_C4 c4fs (errorFree_single _ _) c4name (by decide) ⟨c4content, false⟩ rfl,
    by decide⟩

def c5name : String := r"20250808160000_create_global_optimization_system.sql"

def c5other : String := r"20250808170000_create_security_hardening_system.sql"

def c5fs : FS := fun p => if p = pathOf c5other then some ⟨occLine, false⟩ else none

/-- C5: a listed file whose path does not exist is reported with the
File not found line, nothing is written for it (its path still does not
exist afterwards), every other existing listed file is still processed
normally, and the run still ends with the Done! line. -/
theorem claim_C5 (fs : FS) (hef : errorFree fs) (fn : String) (hfn : fn ∈ files_to_fix)
    (habs : fs (pathOf fn) = none) :
    ( "File not found: " ++ fn ) ∈ (runScript fs).2 ∧
    (runScript fs).1 (pathOf fn) = none ∧
    (∀ g ∈ files_to_fix, ∀ d, fs (pathOf g) = some d →
      (runScript fs).1 (pathOf g) = some ⟨reSub d.content, false⟩) ∧
    (∃ pre, (runScript fs).2 = pre ++ [ "Done!" ]) := by
  obtain ⟨fs₁, hrs, _, _, hsome, hnone⟩ := runScript_ok hef
  refine ⟨?_, ?_, ?_, ?_⟩
  · rw [hrs]
    dsimp only
    refine List.mem_append.mpr (Or.inl ?_)
    refine mem_reports hfn ?_
    unfold reportFor
    rw [habs]
    simp
  · rw [hrs]
    exact hnone fn hfn habs
  · intro g hg d hd
    rw [hrs]
    exact hsome g hg d hd
  · exact ⟨reports fs files_to_fix, by rw [hrs]⟩

/-- C5 witness: the first listed file is missing while another listed
file exists and is rewritten. -/
theorem claim_C5_witness :
    errorFree c5fs ∧ c5name ∈ files_to_fix ∧ c5fs (pathOf c5name) = none ∧
    (( "File not found: " ++ c5name ) ∈ (runScript c5fs).2 ∧
     (runScript c5fs).1 (pathOf c5name) = none ∧
     (∀ g ∈ files_to_fix, ∀ d, c5fs (pathOf g) = some d →
       (runScript c5fs).1 (pathOf g) = some ⟨reSub d.content, false⟩) ∧
     (∃ pre, (runScript c5fs).2 = pre ++ [ "Done!" ])) :=
  ⟨errorFree_single _ _, by decide, by decide,
    claim_C5 c5fs (errorFree_single _ _) c5name (by decide) (by decide)⟩

def c6name : String := r"20250808180000_create_connection_pooling_system.sql"

def c6content : List Char := replacement ++ ( " OR ".data ++ occLine)

def c6fs : FS := fun p => if p = pathOf c6name then some ⟨c6content, false⟩ else none

set_option maxRecDepth 4000 in
/-- C6 counterexample: a listed file exists whose content already holds
one occurrence of public.is_admin() next to one pattern occurrence; the
pattern count is N = 1, yet the content written back holds 2 occurrences
of the replacement string, not exactly N. -/
theorem claim_C6_counterexample :
    countMatches c6content = 1 ∧
    (runScript c6fs).1 (pathOf c6name) = some ⟨reSub c6content, false⟩ ∧
    countOccR (reSub c6content) = 2 := by
  refine ⟨by decide, ?_, by decide⟩
  have hef : errorFree c6fs := errorFree_single (pathOf c6name) c6content
  obtain ⟨fs₁, hrs, _, _, hsome, _⟩ := runScript_ok hef
  rw [hrs]
  exact hsome c6name (by decide) ⟨c6content, false⟩ rfl

/-- C6 amended: for every existing listed file whose original content
has N pattern occurrences with N at least 1, the written content holds
exactly N + K occurrences of the replacement string, where K is the
number of occurrences of the replacement string already present in the
original content (the claim as stated assumed K = 0). -/
theorem claim_C6_amended (fs : FS) (hef : errorFree fs) (fn : String) (hfn : fn ∈ files_to_fix)
    (d : DiskFile) (hd : fs (pathOf fn) = some d) (_hocc : 1 ≤ countMatches d.content) :
    (runScript fs).1 (pathOf fn) = some ⟨reSub d.content, false⟩ ∧
    countOccR (reSub d.content) = countMatches d.content + countOccR d.content := by
  obtain ⟨fs₁, hrs, _, _, hsome, _⟩ := runScript_ok hef
  refine ⟨?_, countOccR_reSub_count d.content⟩
  rw [hrs]
  exact hsome fn hfn d hd

set_option maxRecDepth 4000 in
/-- C6 witness: the same concrete file; N = 1, K = 1, and the written
content holds N + K = 2 replacement occurrences. -/
theorem claim_C6_witness :
    errorFree c6fs ∧ c6name ∈ files_to_fix ∧ c6fs (pathOf c6name) = some ⟨c6content, false⟩ ∧
    1 ≤ countMatches c6content ∧
    ((runScript c6fs).1 (pathOf c6name) = some ⟨reSub c6content, false⟩ ∧
     countOccR (reSub c6content) = countMatches c6content + countOccR c6content) :=
  ⟨errorFree_single _ _, by decide, rfl, by decide,
    claim_C6_amended c6fs (errorFree_single _ _) c6name (by decide)
      ⟨c6content, false⟩ rfl (by decide)⟩

def c7name : String := r"20250808190000_create_performance_optimization_system.sql"

def c7content : List Char := "SELECT count(1) FROM user_roles;".data

def c7fs : FS := fun p => if p = pathOf c7name then some ⟨c7content, false⟩ else none

/-- C7: an existing listed file with zero pattern occurrences is written
back byte-identical, and its console block reports 0 replacements. -/
theorem claim_C7 (fs : FS) (hef : errorFree fs) (fn : String) (hfn : fn ∈ files_to_fix)
    (d : DiskFile) (hd : fs (pathOf fn) = some d) (hzero : countMatches d.content = 0) :
    (runScript fs).1 (pathOf fn) = some ⟨d.content, false⟩ ∧
    ( "  Made 0 replacements" ) ∈ (runScript fs).2 := by
  obtain ⟨fs₁, hrs, _, _, hsome, _⟩ := runScript_ok hef
  have hid : reSub d.content = d.content := reSub_of_zero_count hzero
  constructor
  · rw [hrs]
    have := hsome fn hfn d hd
    rw [hid] at this
    exact this
  · rw [hrs]
    dsimp only
    refine List.mem_append.mpr (Or.inl ?_)
    refine mem_reports hfn ?_
    unfold reportFor
    rw [hd]
    dsimp only
    rw [hzero]
    refine List.mem_cons.mpr (Or.inr (List.mem_cons.mpr (Or.inl ?_)))
    decide

/-- C7 witness: a concrete file without any pattern occurrence. -/
theorem claim_C7_witness :
    errorFree c7fs ∧ c7name ∈ files_to_fix ∧ c7fs (pathOf c7name) = some ⟨c7content, false⟩ ∧
    countMatches c7content = 0 ∧
    ((runScript c7fs).1 (pathOf c7name) = some ⟨c7content, false⟩ ∧
     ( "  Made 0 replacements" ) ∈ (runScript c7fs).2) :=
  ⟨errorFree_single _ _, by decide, rfl, by decide,
    claim_C7 c7fs (errorFree_single _ _) c7name (by decide) ⟨c7content, false⟩ rfl (by decide)⟩

def c8fs : FS := fun p => if p = pathOf c1name then some ⟨occLine, false⟩ else none

/-- C8: the console output is exactly, in list order, one block per
file: the Fixing line followed by the Made count line when the file
exists, or the single File not found line when it does not, followed by
one final Done! line; the fold shape reflects the strictly sequential
left-to-right processing of the list. -/
theorem claim_C8 (fs : FS) (hef : errorFree fs) :
    (runScript fs).2 = files_to_fix.foldr (fun fn acc =>
      (match fs (pathOf fn) with
       | some d => [ "Fixing " ++ fn ++ "...",
           "  Made " ++ toString (countMatches d.content) ++ " replacements" ]
       | none => [ "File not found: " ++ fn ]) ++ acc) [ "Done!" ] := by
  obtain ⟨fs₁, hrs, _, _, _, _⟩ := runScript_ok hef
  rw [hrs]
  dsimp only
  rw [reports_append_foldr]
  rfl

/-- C8 witness: the output of a concrete run. -/
theorem claim_C8_witness :
    errorFree c8fs ∧
    (runScript c8fs).2 = files_to_fix.foldr (fun fn acc =>
      (match c8fs (pathOf fn) with
       | some d => [ "Fixing " ++ fn ++ "...",
           "  Made " ++ toString (countMatches d.content) ++ " replacements" ]
       | none => [ "File not found: " ++ fn ]) ++ acc) [ "Done!" ] :=
  ⟨errorFree_single _ _, claim_C8 c8fs (errorFree_single _ _)⟩

/-- C9: if reading a listed existing file raises (I/O or decoding
error), the batch stops at that file: earlier existing files keep their
already-rewritten contents, the failing file and every later file keep
their original state, and the Done! line is never printed. -/
theorem claim_C9 (fs : FS) (a : List String) (fn : String) (b : List String)
    (hsplit : files_to_fix = a ++ fn :: b)
    (ha : ∀ g ∈ a, ∀ d, fs (pathOf g) = some d → d.ioError = false)
    (dN : DiskFile) (hfsN : fs (pathOf fn) = some dN) (herr : dN.ioError = true) :
    ( "Done!" ) ∉ (runScript fs).2 ∧
    (∀ g ∈ a, ∀ d, fs (pathOf g) = some d →
      (runScript fs).1 (pathOf g) = some ⟨reSub d.content, false⟩) ∧
    (∀ g ∈ b, (runScript fs).1 (pathOf g) = fs (pathOf g)) ∧
    (runScript fs).1 (pathOf fn) = fs (pathOf fn) := by
  obtain ⟨fs₁, hrs, hun, hsome⟩ := runScript_err hsplit ha hfsN herr
  have hnd : (((a ++ fn :: b).map pathOf).Nodup) := by
    rw [← hsplit]
    exact paths_nodup
  rw [List.map_append] at hnd
  have hdisj := (List.nodup_append.mp hnd).2.2
  refine ⟨?_, ?_, ?_, ?_⟩
  · rw [hrs]
    dsimp only
    intro hmem
    rcases List.mem_append.mp hmem with h | h
    · exact reports_no_done fs a _ h rfl
    · rw [List.mem_singleton] at h
      exact ne_done_of_head (l := "Fixing " ++ fn ++ "...") (by rw [fixing_head]; decide) h.symm
  · intro g hg d hd
    rw [hrs]
    exact hsome g hg d hd
  · intro g hg
    rw [hrs]
    dsimp only
    apply hun
    intro hmem
    exact hdisj hmem (List.mem_map_of_mem pathOf (List.mem_cons_of_mem fn hg))
  · rw [hrs]
    dsimp only
    apply hun
    intro hmem
    exact hdisj hmem (List.mem_map_of_mem pathOf (List.mem_cons_self fn b))

def c9n1 : String := r"20250807120000_create_performance_monitoring.sql"

def c9n2 : String := r"20250808120000_create_batch_jobs_and_webhook_monitoring.sql"

def c9rest : List String :=
  [ r"20250808140000_create_migration_control_system.sql",
    r"20250808150000_create_production_validation_system.sql",
    r"20250808160000_create_global_optimization_system.sql",
    r"20250808170000_create_security_hardening_system.sql",
    r"20250808180000_create_connection_pooling_system.sql",
    r"20250808190000_create_performance_optimization_system.sql" ]

def c9fs : FS := fun p =>
  if p = pathOf c9n1 then some ⟨occLine, false⟩
  else if p = pathOf c9n2 then some ⟨occLine, true⟩
  else none

set_option maxRecDepth 4000 in
/-- C9 witness: the first listed file is healthy, the second raises on
read, the remaining six follow it in the list. -/
theorem claim_C9_witness :
    files_to_fix = [ c9n1 ] ++ c9n2 :: c9rest ∧
    (∀ g ∈ [ c9n1 ], ∀ d, c9fs (pathOf g) = some d → d.ioError = false) ∧
    c9fs (pathOf c9n2) = some ⟨occLine, true⟩ ∧
    (DiskFile.ioError ⟨occLine, true⟩) = true ∧
    (( "Done!" ) ∉ (runScript c9fs).2 ∧
     (∀ g ∈ [ c9n1 ], ∀ d, c9fs (pathOf g) = some d →
       (runScript c9fs).1 (pathOf g) = some ⟨reSub d.content, false⟩) ∧
     (∀ g ∈ c9rest, (runScript c9fs).1 (pathOf g) = c9fs (pathOf g)) ∧
     (runScript c9fs).1 (pathOf c9n2) = c9fs (pathOf c9n2)) := by
  have ha : ∀ g ∈ [ c9n1 ], ∀ d, c9fs (pathOf g) = some d → d.ioError = false := by
    intro g hg d hd
    rw [List.mem_singleton] at hg
    subst hg
    have hv : c9fs (pathOf c9n1) = some ⟨occLine, false⟩ := by decide
    rw [hv] at hd
    cases hd
    rfl
  have hfsN : c9fs (pathOf c9n2) = some ⟨occLine, true⟩ := by decide
  exact ⟨rfl, ha, hfsN, rfl,
    claim_C9 c9fs [ c9n1 ] c9n2 c9rest rfl ha ⟨occLine, true⟩ hfsN rfl⟩

/-- Letter-case variant of the target fragment: lowercase exists. -/
def c10lower : List Char := "exists (".data

/-- Letter-case variant of the target fragment: capitalised Role. -/
def c10role : List Char :=
  "EXISTS (SELECT 1 FROM user_roles WHERE user_id = auth.uid() AND Role = ".data ++
    ([quoteChar] ++ ( "admin".data ++ [quoteChar]))

/-- C10: matching is case-sensitive.  A content in which the pattern
matches at no position (as is the case when the fragment appears only in
a different letter case) gets count 0 and is written back unchanged; and
the two letter-case variants named by the claim are indeed matched at no
position, whatever follows them. -/
theorem claim_C10 :
    (∀ s : List Char, (∀ i < s.length, matchPattern (s.drop i) = none) →
      countMatches s = 0 ∧ reSub s = s) ∧
    (∀ t : List Char, matchPattern (c10lower ++ t) = none) ∧
    (∀ t : List Char, matchPattern (c10role ++ t) = none) := by
  refine ⟨?_, fun t => rfl, fun t => rfl⟩
  intro s h
  have h₂ := no_match_of_bounded h
  exact ⟨countMatches_eq_zero_iff.mpr h₂,
    reSub_of_zero_count (countMatches_eq_zero_iff.mpr h₂)⟩

/-- A content whose only candidate fragment has lowercase exists. -/
def c10sample : List Char :=
  "CREATE POLICY p USING (exists (SELECT 1 FROM user_roles WHERE user_id = auth.uid() AND role = ".data ++
    ([quoteChar] ++ ( "admin".data ++ ([quoteChar] ++ "))".data)))

set_option maxRecDepth 4000 in
/-- C10 witness: the concrete lowercase-variant content matches at no
position, so it is counted 0 and kept unchanged. -/
theorem claim_C10_witness :
    (∀ i < c10sample.length, matchPattern (c10sample.drop i) = none) ∧
    (countMatches c10sample = 0 ∧ reSub c10sample = c10sample) :=
  ⟨by decide, claim_C10.1 c10sample (by decide)⟩
